import Mathlib

set_option linter.unusedSectionVars false

deriving instance DecidableEq for Except

/-
  A shallow embedding of the versioned key-value index of
  `src/reference-version/index.py` (class `Index`), together with proofs of
  the behavioural properties stated in the specification.

  Modelling conventions:
  * Python `dict` (and `defaultdict`) values are embedded as association
    lists kept in insertion order, with unique keys for states reachable by
    the class's own methods.  A `defaultdict` read that creates a missing
    bucket is modelled by `dictGetOrCreate`, which returns the (possibly
    extended) dictionary alongside the value, since that read is a real
    mutation of the Python object.
  * The two `assert` statements of `index.py` are embedded by returning
    `Except.error Err.assertionFailed`; Python raises a bare
    `AssertionError` in both places (the specification names these
    StaleVersionAccess and NonMonotonicCompaction, but the code does not
    distinguish them).
  * Multiplicities are `Int`; values and keys are type parameters.
  * `Collection` (from `collection.py`, not part of the sources) is a thin
    wrapper over its list of (value, multiplicity) pairs; it is modelled by
    that list itself.
-/

/-- Modelled from the spec: `Version` of `order.py` is not among the
sources.  Per §3 a Version is "conventionally a vector of non-negative
integers, one per independent dimension of logical time"; it is embedded
as `List Nat`.  Coordinates beyond a vector's length are read as 0, which
coincides with the Python behaviour on the equal-length vectors actually
used. -/
abbrev Version := List Nat

/-- Modelled from the spec: `Version.less_equal` — "true iff every
coordinate of self ≤ the corresponding coordinate of other". -/
def Version.less_equal (v w : Version) : Bool :=
  (List.range (max v.length w.length)).all fun idx =>
    decide (v.getD idx 0 ≤ w.getD idx 0)

/-- Modelled from the spec: `Version.join` — "least upper bound in the
lattice, i.e., coordinate-wise max for vector orders". -/
def Version.join (v w : Version) : Version :=
  (List.range (max v.length w.length)).map fun idx =>
    max (v.getD idx 0) (w.getD idx 0)

/-- Modelled from the spec: an `Antichain` (frontier) of `order.py` is a
set of Versions, embedded as a list. -/
abbrev Frontier := List Version

/-- Modelled from the spec: `Antichain.less_equal` — "every element of
self is ≤ some element of other". -/
def Antichain.le (a b : Frontier) : Bool :=
  a.all fun x => b.any fun y => Version.less_equal x y

/-- Modelled from the spec: `Antichain.less_equal_version` — "some element
of self is ≤ v". -/
def Antichain.le_version (a : Frontier) (v : Version) : Bool :=
  a.any fun x => Version.less_equal x v

/-- Modelled from the spec: `Version.advance_by` of `order.py` is not among
the sources.  Per §3 it returns "the smallest Version that is ≥ the
original and also ≥ some element of the given frontier", and §9 suggests
"the join of the version with the frontier element it is being rounded up
to".  It is embedded as a minimal candidate among the joins of the version
with each frontier element (on an empty frontier the version is returned
unchanged); for the singleton frontiers exercised by the specification's
examples this is exactly `Version.join` with the lone element. -/
def Version.advance_by (v : Version) (frontier : Frontier) : Version :=
  match frontier with
  | [] => v
  | f :: fs =>
      fs.foldl
        (fun acc g =>
          if Version.less_equal (Version.join v g) acc then Version.join v g else acc)
        (Version.join v f)

section Dict

variable {α β : Type} [DecidableEq α]

/-- First-match lookup in an insertion-ordered association list
(Python `d[k]` read / `k in d`). -/
def dictFind? : List (α × β) → α → Option β
  | [], _ => none
  | p :: rest, a => if p.1 = a then some p.2 else dictFind? rest a

/-- Lookup with a default (`d.get(k, dflt)`). -/
def dictGetD : List (α × β) → α → β → β
  | [], _, dflt => dflt
  | p :: rest, a, dflt => if p.1 = a then p.2 else dictGetD rest a dflt

/-- `d[k] = b`: replace the value at `k`, or append the binding at the end
if `k` is absent. -/
def dictSet : List (α × β) → α → β → List (α × β)
  | [], a, b => [(a, b)]
  | p :: rest, a, b => if p.1 = a then (a, b) :: rest else p :: dictSet rest a b

/-- `d.pop(k)`'s effect on the dictionary: drop the binding at `k`. -/
def dictRemove : List (α × β) → α → List (α × β)
  | [], _ => []
  | p :: rest, a => if p.1 = a then rest else p :: dictRemove rest a

/-- A `defaultdict(list)`-style read: return the bucket at `a` together
with the dictionary, which gains an empty bucket at the end when `a` was
absent (that is what Python's `defaultdict.__missing__` does). -/
def dictGetOrCreate : List (α × List β) → α → (List β × List (α × List β))
  | [], a => ([], [(a, [])])
  | p :: rest, a =>
      if p.1 = a then (p.2, p :: rest)
      else
        let r := dictGetOrCreate rest a
        (r.1, p :: r.2)

/-- `d[a].append(b)` on a `defaultdict(list)`. -/
def dictExtend : List (α × List β) → α → β → List (α × List β)
  | [], a, b => [(a, [b])]
  | p :: rest, a, b =>
      if p.1 = a then (p.1, p.2 ++ [b]) :: rest else p :: dictExtend rest a b

/-- `d[a].extend(bs)` on a `defaultdict(list)`: the bucket is created even
when `bs` is empty, because the `d[a]` read itself creates it. -/
def dictExtendList : List (α × List β) → α → List β → List (α × List β)
  | [], a, bs => [(a, bs)]
  | p :: rest, a, bs =>
      if p.1 = a then (p.1, p.2 ++ bs) :: rest else p :: dictExtendList rest a bs

/-- `d[a] += m` on a `defaultdict(int)`. -/
def dictAddInt : List (α × Int) → α → Int → List (α × Int)
  | [], a, m => [(a, m)]
  | p :: rest, a, m =>
      if p.1 = a then (p.1, p.2 + m) :: rest else p :: dictAddInt rest a m

/-- The keys of an association list, in order. -/
def keysOf (d : List (α × β)) : List α := d.map (·.1)

end Dict

/-- Duplicate removal keeping the first occurrence of each element, in
first-occurrence order (the iteration order of a Python `dict` whose keys
were inserted in the list's order). -/
def firstDedup {α : Type} [DecidableEq α] : List α → List α
  | [] => []
  | a :: rest => a :: (firstDedup rest).filter fun x => decide (x ≠ a)

/-- The single failure mode of `index.py`: a failed `assert` (the
specification calls the two assert sites StaleVersionAccess and
NonMonotonicCompaction; both raise a bare `AssertionError`). -/
inductive Err : Type
  | assertionFailed
deriving DecidableEq, Repr

/-- One key's slice of the trace: version → list of (value, multiplicity)
entries, in insertion order. -/
abbrev VMap (V : Type) := List (Version × List (V × Int))

/-- The `Index` class of `index.py`: `self.inner` is the
key → version → entries nested dictionary, `self.compaction_frontier`
starts out `None`. -/
structure Index (K V : Type) where
  inner : List (K × VMap V)
  compaction_frontier : Option Frontier
deriving DecidableEq

variable {K V W : Type} [DecidableEq K] [DecidableEq V] [DecidableEq W]

/-- `Index()` — empty trace, no compaction frontier. -/
def Index.empty : Index K V := ⟨[], none⟩

/-- `Index._validate` on a `Version` argument: passes when no compaction
frontier is installed, otherwise asserts
`self.compaction_frontier.less_equal_version(requested_version)`. -/
def Index.validate_version (i : Index K V) (v : Version) : Bool :=
  match i.compaction_frontier with
  | none => true
  | some f => Antichain.le_version f v

/-- `Index._validate` on an `Antichain` argument: passes when no compaction
frontier is installed, otherwise asserts
`self.compaction_frontier.less_equal(requested_version)`. -/
def Index.validate_frontier (i : Index K V) (a : Frontier) : Bool :=
  match i.compaction_frontier with
  | none => true
  | some f => Antichain.le f a

/-- The loop body of `reconstruct_at`: concatenate the buckets of the
versions `≤ requested_version`, in the dictionary's iteration order. -/
def reconstructList (vmap : VMap V) (rv : Version) : List (V × Int) :=
  vmap.foldl (fun out p => if Version.less_equal p.1 rv then out ++ p.2 else out) []

/-- `Index.reconstruct_at`: validate, then fold over `self.inner[key]`
(a `defaultdict` read, which creates the key's bucket when absent). -/
def Index.reconstruct_at (i : Index K V) (k : K) (rv : Version) :
    Except Err (List (V × Int) × Index K V) :=
  if i.validate_version rv then
    let r := dictGetOrCreate i.inner k
    Except.ok (reconstructList r.1 rv, Index.mk r.2 i.compaction_frontier)
  else Except.error Err.assertionFailed

/-- `Index.versions`: the versions recorded for `key`
(`self.inner[key]` is again a bucket-creating `defaultdict` read). -/
def Index.versions (i : Index K V) (k : K) : List Version × Index K V :=
  let r := dictGetOrCreate i.inner k
  (r.1.map (·.1), Index.mk r.2 i.compaction_frontier)

/-- `self.inner[key][version].append(value)`. -/
def innerExtend (inner : List (K × VMap V)) (k : K) (ver : Version) (e : V × Int) :
    List (K × VMap V) :=
  match inner with
  | [] => [(k, dictExtend [] ver e)]
  | p :: rest =>
      if p.1 = k then (p.1, dictExtend p.2 ver e) :: rest
      else p :: innerExtend rest k ver e

/-- `self.inner[key][version].extend(data)`. -/
def innerExtendList (inner : List (K × VMap V)) (k : K) (ver : Version)
    (es : List (V × Int)) : List (K × VMap V) :=
  match inner with
  | [] => [(k, dictExtendList [] ver es)]
  | p :: rest =>
      if p.1 = k then (p.1, dictExtendList p.2 ver es) :: rest
      else p :: innerExtendList rest k ver es

/-- `Index.add_value`: validate the version, then append the entry. -/
def Index.add_value (i : Index K V) (k : K) (ver : Version) (e : V × Int) :
    Except Err (Index K V) :=
  if i.validate_version ver then
    Except.ok (Index.mk (innerExtend i.inner k ver e) i.compaction_frontier)
  else Except.error Err.assertionFailed

/-- `Index.append`: for every key and version of `other`, extend this
index's bucket with `other`'s entries.  No validation is performed. -/
def Index.append (i other : Index K V) : Index K V :=
  Index.mk
    (other.inner.foldl
      (fun inn p => p.2.foldl (fun inn2 q => innerExtendList inn2 p.1 q.1 q.2) inn)
      i.inner)
    i.compaction_frontier

/-- `Index.join`: for every key present in both indexes, the cross product
of the two version buckets, accumulated into a version-keyed dictionary;
finally versions whose collection is the empty list are dropped.  The
`Collection` wrapper of the Python code is modelled by the bare list it
wraps. -/
def Index.join (a : Index K V) (b : Index K W) :
    List (Version × List ((K × (V × W)) × Int)) :=
  let collections :=
    a.inner.foldl
      (fun d p =>
        match dictFind? b.inner p.1 with
        | none => d
        | some bvmap =>
            p.2.foldl
              (fun d1 q1 =>
                bvmap.foldl
                  (fun d2 q2 =>
                    q1.2.foldl
                      (fun d3 e1 =>
                        q2.2.foldl
                          (fun d4 e2 =>
                            dictExtend d4 (Version.join q1.1 q2.1)
                              ((p.1, (e1.1, e2.1)), e1.2 * e2.2))
                          d3)
                      d2)
                  d1)
              d)
      []
  collections.filterMap fun p => if p.2 = [] then none else some p

/-- `consolidate_values` (the local helper of `Index.compact`): sum
multiplicities grouped by value via a `defaultdict(int)`, then drop the
values whose net multiplicity is zero. -/
def consolidate_values (values : List (V × Int)) : List (V × Int) :=
  (values.foldl (fun d p => dictAddInt d p.1 p.2) []).filter fun p => decide (p.2 ≠ 0)

/-- The first loop of `Index.compact` for one key: pop each to-compact
version, advance it by the frontier, and extend the bucket at the advanced
version with the popped entries.  Returns the new version map and the list
of advanced versions in the order they were produced (Python records them
in a set `to_consolidate`). -/
def compactLoop1 (cf : Frontier) : List Version → VMap V → (VMap V × List Version)
  | [], vmap => (vmap, [])
  | ver :: rest, vmap =>
      let values := dictGetD vmap ver []
      let vmap1 := dictRemove vmap ver
      let nv := Version.advance_by ver cf
      let vmap2 := dictExtendList vmap1 nv values
      let r := compactLoop1 cf rest vmap2
      (r.1, nv :: r.2)

/-- The second loop of `Index.compact` for one key: pop each version that
received merged entries and re-insert its consolidated bucket (Python's
`versions[version] = consolidate_values(values)` re-inserts at the end of
the dictionary). -/
def compactLoop2 : List Version → VMap V → VMap V
  | [], vmap => vmap
  | ver :: rest, vmap =>
      let values := dictGetD vmap ver []
      compactLoop2 rest (dictRemove vmap ver ++ [(ver, consolidate_values values)])

/-- The body of `Index.compact` for one key: partition the key's versions
into to-compact (not ≥ the frontier) and kept, run the advance-and-merge
loop, then consolidate every version that received merged entries. -/
def compactKey (cf : Frontier) (vmap : VMap V) : VMap V :=
  let tc := (keysOf vmap).filter fun ver => !(Antichain.le_version cf ver)
  let r1 := compactLoop1 cf tc vmap
  compactLoop2 (firstDedup r1.2) r1.1

/-- `Index.compact` with the default `keys=[]` argument (all keys):
validate the requested frontier against the installed one, compact and
consolidate every key, re-check the trailing `assert`, and install the new
frontier.  The iteration order chosen for Python's `to_consolidate` set is
first-production order. -/
def Index.compact (i : Index K V) (cf : Frontier) : Except Err (Index K V) :=
  if i.validate_frontier cf then
    let ks := keysOf i.inner
    let inner2 :=
      ks.foldl
        (fun inn k =>
          let r := dictGetOrCreate inn k
          dictSet r.2 k (compactKey cf r.1))
        i.inner
    if i.validate_frontier cf then Except.ok (Index.mk inner2 (some cf))
    else Except.error Err.assertionFailed
  else Except.error Err.assertionFailed

/-- Build an index from a list of `add_value` calls starting from the
empty index (on which `add_value` never fails, the frontier being unset;
a failing call would leave the index unchanged). -/
def buildIndex (ops : List (K × Version × (V × Int))) : Index K V :=
  ops.foldl
    (fun i op =>
      match i.add_value op.1 op.2.1 op.2.2 with
      | Except.ok i2 => i2
      | Except.error _ => i)
    Index.empty

/-- Extract the list result of a successful `reconstruct_at`. -/
def okList (e : Except Err (List (V × Int) × Index K V)) : List (V × Int) :=
  match e with
  | Except.ok p => p.1
  | Except.error _ => []

/-- Extract the index produced by a successful mutating call. -/
def okIndex (e : Except Err (Index K V)) : Index K V :=
  match e with
  | Except.ok i => i
  | Except.error _ => Index.empty

/-- Whether an `Except` result is a success. -/
def Except.isOkB {ε α : Type} (e : Except ε α) : Bool :=
  match e with
  | Except.ok _ => true
  | Except.error _ => false

/-- The specification-side grouping of a sequence of (key, item) pairs
into a key-keyed dictionary: keys in first-occurrence order, each mapped
to the list of its items in sequence order.  This is the stated shape of
`join`'s output ("grouped by result version") and of one key's version
map after a sequence of insertions. -/
def groupSpec {α β : Type} [DecidableEq α] (ps : List (α × β)) : List (α × List β) :=
  (firstDedup (ps.map (·.1))).map fun a =>
    (a, (ps.filter fun p => decide (p.1 = a)).map (·.2))

/-- The products one key entry of `self` contributes to `join` (§4.4):
nothing when the key is absent from the other index, otherwise the full
cross product of the two buckets — the product entry
`((key, (value1, value2)), multiplicity1 * multiplicity2)` tagged with
`version1.join(version2)` — in the nested iteration order of the code. -/
def keyProducts (b : Index K W) (p : K × VMap V) :
    List (Version × ((K × (V × W)) × Int)) :=
  match dictFind? b.inner p.1 with
  | none => []
  | some bvmap =>
      p.2.flatMap fun q1 =>
        bvmap.flatMap fun q2 =>
          q1.2.flatMap fun e1 =>
            q2.2.map fun e2 =>
              (Version.join q1.1 q2.1, ((p.1, (e1.1, e2.1)), e1.2 * e2.2))

/-- The specification-side cross product of `join`: every key's
contributions, in iteration order. -/
def joinProducts (a : Index K V) (b : Index K W) :
    List (Version × ((K × (V × W)) × Int)) :=
  a.inner.flatMap (keyProducts b)

/-- The `add_value` calls of an operation list that target key `k`,
reduced to their (version, entry) payload. -/
def opsAt (ops : List (K × Version × (V × Int))) (k : K) :
    List (Version × (V × Int)) :=
  ops.filterMap fun op => if op.1 = k then some op.2 else none

/-- The specification-side reading of `reconstruct_at` on an index built
by `add_value` calls: group the key's insertions by version (versions in
first-occurrence order), keep the versions `≤ v`, and concatenate their
entry lists. -/
def reconstructSpecGrouped (ops : List (K × Version × (V × Int))) (k : K)
    (v : Version) : List (V × Int) :=
  ((firstDedup ((opsAt ops k).map (·.1))).filter fun w => Version.less_equal w v).flatMap
    fun w => ((opsAt ops k).filter fun p => decide (p.1 = w)).map (·.2)

/-- `Index` states reachable in Python have dictionaries with pairwise
distinct keys at both levels. -/
def Index.WF (i : Index K V) : Prop :=
  (keysOf i.inner).Nodup ∧ ∀ p ∈ i.inner, (keysOf p.2).Nodup

/-- The `foldl` step of `buildIndex`, named for the proofs. -/
def addStep (i : Index K V) (op : K × Version × (V × Int)) : Index K V :=
  match i.add_value op.1 op.2.1 op.2.2 with
  | Except.ok i2 => i2
  | Except.error _ => i

/-- The three `add_value` calls refuting C1's insertion-order clause:
two versions are interleaved at one key. -/
def opsC1 : List (Nat × Version × (Int × Int)) :=
  [(0, [1], (1, 1)), (0, [2], (2, 1)), (0, [1], (3, 1))]

/-- A concrete index with compaction frontier `{[2]}` installed and no
entries, for the witnesses of the error-handling claims. -/
def iFr : Index Nat Int := okIndex (Index.compact (Index.mk [] none) [[2]])

/-- Index A of the append-composition example: key 0 at versions `[1]`
and `[2]`. -/
def iA6 : Index Nat Int := buildIndex [(0, [1], (1, 1)), (0, [2], (2, 1))]

/-- Index B of the append-composition example: key 0 at versions `[1]`
and `[2]`. -/
def iB6 : Index Nat Int := buildIndex [(0, [1], (3, 1)), (0, [2], (4, 1))]

/-- One-entry index holding a multiplicity-0 entry, the left input of the
C10 witness. -/
def iZ1 : Index Nat Int := Index.mk [(0, [([1], [(5, 0)])])] none

/-- One-entry index holding a multiplicity-3 entry, the right input of the
C10 witness. -/
def iZ2 : Index Nat Int := Index.mk [(0, [([1], [(7, 3)])])] none

/-- The `add_value` calls of the specification's compaction example:
entries `(10, 1)` and `(10, 2)` at version `[1]` and `(10, -1)` at
version `[2]`, all under one key. -/
def opsC3 : List (Nat × Version × (Int × Int)) :=
  [(1, [1], (10, 1)), (1, [1], (10, 2)), (1, [2], (10, -1))]

section DictLemmas

variable {α β : Type} [DecidableEq α]

theorem dictGetD_dictExtend (d : List (α × List β)) (a x : α) (b : β) :
    dictGetD (dictExtend d a b) x [] =
      if x = a then dictGetD d x [] ++ [b] else dictGetD d x [] := by
  induction d with
  | nil =>
      by_cases h : x = a
      · subst h; simp [dictExtend, dictGetD]
      · simp [dictExtend, dictGetD, h, Ne.symm h]
  | cons p rest ih =>
      by_cases hpa : p.1 = a
      · by_cases hxa : x = a
        · subst hxa; simp [dictExtend, dictGetD, hpa]
        · have hpx : ¬ p.1 = x := fun hh => hxa (hh ▸ hpa)
          simp [dictExtend, dictGetD, hpa, hxa, hpx, Ne.symm hxa]
      · by_cases hpx : p.1 = x
        · have hxa : ¬ x = a := fun hh => hpa (hpx.symm ▸ hh)
          simp [dictExtend, dictGetD, hpa, hpx, hxa]
        · simp [dictExtend, dictGetD, hpa, hpx, ih]

theorem dictExtend_of_not_mem (d : List (α × List β)) (a : α) (b : β)
    (h : a ∉ keysOf d) : dictExtend d a b = d ++ [(a, [b])] := by
  induction d with
  | nil => simp [dictExtend]
  | cons p rest ih =>
      simp only [keysOf, List.map_cons, List.mem_cons] at h
      push_neg at h
      simp [dictExtend, Ne.symm h.1, ih (by simpa [keysOf] using h.2)]

theorem dictExtend_map_of_nodup (keys : List α) (f : α → List β) (a : α) (b : β)
    (hnd : keys.Nodup) (ha : a ∈ keys) :
    dictExtend (keys.map fun x => (x, f x)) a b =
      keys.map fun x => (x, f x ++ if a = x then [b] else []) := by
  induction keys with
  | nil => cases ha
  | cons x rest ih =>
      rcases List.nodup_cons.mp hnd with ⟨hx, hrest⟩
      by_cases hxa : x = a
      · subst hxa
        have : ∀ y ∈ rest, (y, f y ++ if x = y then [b] else []) = (y, f y) := by
          intro y hy
          have : ¬ x = y := fun hh => hx (hh ▸ hy)
          simp [this]
        simp [dictExtend, List.map_congr_left this]
      · have ha' : a ∈ rest := by
          rcases List.mem_cons.mp ha with h | h
          · exact absurd h.symm hxa
          · exact h
        have hax : ¬ a = x := fun hh => hxa hh.symm
        simp [dictExtend, hxa, hax, ih hrest ha']

end DictLemmas

section FirstDedupLemmas

variable {α : Type} [DecidableEq α]

theorem mem_firstDedup {a : α} {xs : List α} : a ∈ firstDedup xs ↔ a ∈ xs := by
  induction xs with
  | nil => simp [firstDedup]
  | cons x rest ih =>
      by_cases h : a = x
      · subst h; simp [firstDedup]
      · simp [firstDedup, List.mem_filter, h, ih]

theorem nodup_firstDedup (xs : List α) : (firstDedup xs).Nodup := by
  induction xs with
  | nil => simp [firstDedup]
  | cons x rest ih =>
      refine List.nodup_cons.mpr ⟨?_, ih.filter _⟩
      intro hmem
      have := (List.mem_filter.mp hmem).2
      simp at this

theorem firstDedup_append_single (xs : List α) (a : α) :
    firstDedup (xs ++ [a]) =
      if a ∈ xs then firstDedup xs else firstDedup xs ++ [a] := by
  induction xs with
  | nil => simp [firstDedup]
  | cons x rest ih =>
      by_cases hmem : a ∈ rest
      · simp [firstDedup, ih, hmem, List.mem_cons]
      · by_cases hax : a = x
        · subst hax
          simp [firstDedup, ih, hmem, List.filter_append]
        · simp [firstDedup, ih, hmem, hax, List.filter_append, List.mem_cons]

end FirstDedupLemmas

section GroupSpecLemmas

variable {α β : Type} [DecidableEq α]

theorem keysOf_groupSpec (ps : List (α × β)) :
    keysOf (groupSpec ps) = firstDedup (ps.map (·.1)) := by
  simp [groupSpec, keysOf, List.map_map, Function.comp_def]

theorem groupSpec_append_single (ps : List (α × β)) (q : α × β) :
    groupSpec (ps ++ [q]) = dictExtend (groupSpec ps) q.1 q.2 := by
  have hbucket : ∀ x : α,
      ((ps ++ [q]).filter fun p => decide (p.1 = x)).map (·.2) =
        ((ps.filter fun p => decide (p.1 = x)).map (·.2)) ++
          (if q.1 = x then [q.2] else []) := by
    intro x
    rw [List.filter_append, List.map_append]
    congr 1
    by_cases h : q.1 = x <;> simp [h]
  by_cases hmem : q.1 ∈ ps.map (·.1)
  · have hkeys : firstDedup ((ps ++ [q]).map (·.1)) = firstDedup (ps.map (·.1)) := by
      rw [List.map_append, List.map_singleton, firstDedup_append_single, if_pos hmem]
    simp only [groupSpec]
    rw [hkeys]
    refine Eq.trans (List.map_congr_left fun x _ => ?_)
      ((dictExtend_map_of_nodup (firstDedup (ps.map (·.1)))
        (fun x => (ps.filter fun p => decide (p.1 = x)).map (·.2)) q.1 q.2
        (nodup_firstDedup _) (mem_firstDedup.mpr hmem)).symm)
    exact congrArg (fun t => (x, t)) (hbucket x)
  · have hkeys : firstDedup ((ps ++ [q]).map (·.1)) =
        firstDedup (ps.map (·.1)) ++ [q.1] := by
      rw [List.map_append, List.map_singleton, firstDedup_append_single, if_neg hmem]
    have hnotkey : q.1 ∉ keysOf (groupSpec ps) := by
      rw [keysOf_groupSpec]
      exact fun h => hmem (mem_firstDedup.mp h)
    have hfilter : (ps.filter fun p => decide (p.1 = q.1)) = [] := by
      refine List.filter_eq_nil_iff.mpr fun p hp => ?_
      simp only [decide_eq_true_eq]
      exact fun h => hmem (h ▸ List.mem_map_of_mem (·.1) hp)
    refine Eq.trans ?_ (dictExtend_of_not_mem (groupSpec ps) q.1 q.2 hnotkey).symm
    simp only [groupSpec]
    rw [hkeys, List.map_append, List.map_singleton]
    congr 1
    · refine List.map_congr_left fun x hx => ?_
      rw [hbucket x, if_neg, List.append_nil]
      exact fun h => hmem (h ▸ mem_firstDedup.mp hx)
    · rw [hbucket q.1, hfilter, if_pos rfl]
      simp

theorem foldl_dictExtend_eq_groupSpec (ps : List (α × β)) :
    ps.foldl (fun d p => dictExtend d p.1 p.2) [] = groupSpec ps := by
  induction ps using List.reverseRecOn with
  | nil => simp [groupSpec, firstDedup]
  | append_singleton l q ih =>
      rw [List.foldl_append, List.foldl_cons, List.foldl_nil, ih,
        groupSpec_append_single]

theorem bucket_ne_nil_of_mem_groupSpec {ps : List (α × β)} {x : α} {c : List β}
    (h : (x, c) ∈ groupSpec ps) : c ≠ [] := by
  rcases List.mem_map.mp h with ⟨a, ha, heq⟩
  have hx : a = x := congrArg Prod.fst heq
  subst hx
  have hc : c = (ps.filter fun p => decide (p.1 = a)).map (·.2) :=
    (congrArg Prod.snd heq).symm
  have hmem : a ∈ ps.map (·.1) := mem_firstDedup.mp ha
  rcases List.mem_map.mp hmem with ⟨p, hp, hpa⟩
  intro hnil
  rw [hc] at hnil
  have : p ∈ ps.filter fun p => decide (p.1 = a) :=
    List.mem_filter.mpr ⟨hp, by simp [hpa]⟩
  simp [List.map_eq_nil_iff.mp hnil] at this

theorem mem_groupSpec_of_mem {ps : List (α × β)} {p : α × β} (h : p ∈ ps) :
    ∃ c, (p.1, c) ∈ groupSpec ps ∧ p.2 ∈ c := by
  refine ⟨(ps.filter fun q => decide (q.1 = p.1)).map (·.2), ?_, ?_⟩
  · exact List.mem_map.mpr ⟨p.1,
      mem_firstDedup.mpr (List.mem_map_of_mem (·.1) h), rfl⟩
  · exact List.mem_map.mpr ⟨p, List.mem_filter.mpr ⟨h, by simp⟩, rfl⟩

theorem mem_of_mem_groupSpec {ps : List (α × β)} {x : α} {c : List β} {b : β}
    (h : (x, c) ∈ groupSpec ps) (hb : b ∈ c) : (x, b) ∈ ps := by
  rcases List.mem_map.mp h with ⟨a, _, heq⟩
  have hx : a = x := congrArg Prod.fst heq
  subst hx
  have hc : c = (ps.filter fun p => decide (p.1 = a)).map (·.2) :=
    (congrArg Prod.snd heq).symm
  rw [hc] at hb
  rcases List.mem_map.mp hb with ⟨p, hp, hpb⟩
  rcases List.mem_filter.mp hp with ⟨hps, hpa⟩
  have : p.1 = a := by simpa using hpa
  have hpeq : p = (a, b) := by
    cases p
    simp only [Prod.mk.injEq]
    exact ⟨this, hpb⟩
  exact hpeq ▸ hps

end GroupSpecLemmas

section ReconstructLemmas

theorem reconstructList_go (rv : Version) (vmap : VMap V) :
    ∀ acc : List (V × Int),
      vmap.foldl (fun out p => if Version.less_equal p.1 rv then out ++ p.2 else out) acc =
        acc ++ (vmap.filter fun p => Version.less_equal p.1 rv).flatMap (·.2) := by
  induction vmap with
  | nil => simp
  | cons p rest ih =>
      intro acc
      by_cases h : Version.less_equal p.1 rv
      · simp [h, ih, List.append_assoc]
      · simp [h, ih]

theorem reconstructList_eq_filter (vmap : VMap V) (rv : Version) :
    reconstructList vmap rv =
      (vmap.filter fun p => Version.less_equal p.1 rv).flatMap (·.2) := by
  simpa using reconstructList_go rv vmap []

end ReconstructLemmas

section GetOrCreateLemmas

variable {α β : Type} [DecidableEq α]

theorem dictGetOrCreate_fst (d : List (α × List β)) (a : α) :
    (dictGetOrCreate d a).1 = dictGetD d a [] := by
  induction d with
  | nil => simp [dictGetOrCreate, dictGetD]
  | cons p rest ih =>
      by_cases h : p.1 = a <;> simp [dictGetOrCreate, dictGetD, h, ih]

theorem dictGetOrCreate_snd_of_mem {d : List (α × List β)} {a : α}
    (h : a ∈ keysOf d) : (dictGetOrCreate d a).2 = d := by
  induction d with
  | nil => cases h
  | cons p rest ih =>
      by_cases hpa : p.1 = a
      · simp [dictGetOrCreate, hpa]
      · have : a ∈ keysOf rest := by
          rcases List.mem_cons.mp h with h1 | h1
          · exact absurd h1.symm hpa
          · exact h1
        simp [dictGetOrCreate, hpa, ih this]

theorem dictGetOrCreate_snd_of_not_mem {d : List (α × List β)} {a : α}
    (h : a ∉ keysOf d) : (dictGetOrCreate d a).2 = d ++ [(a, [])] := by
  induction d with
  | nil => simp [dictGetOrCreate]
  | cons p rest ih =>
      simp only [keysOf, List.map_cons, List.mem_cons] at h
      push_neg at h
      simp [dictGetOrCreate, Ne.symm h.1, ih (by simpa [keysOf] using h.2)]

theorem dictGetD_getOrCreate_snd (d : List (α × List β)) (a x : α) :
    dictGetD (dictGetOrCreate d a).2 x [] = dictGetD d x [] := by
  induction d with
  | nil =>
      by_cases h : x = a
      · subst h; simp [dictGetOrCreate, dictGetD]
      · simp [dictGetOrCreate, dictGetD, Ne.symm h]
  | cons p rest ih =>
      by_cases hpa : p.1 = a
      · simp [dictGetOrCreate, hpa]
      · by_cases hpx : p.1 = x
        · have hxa : ¬ x = a := fun hh => hpa (hpx.symm ▸ hh)
          simp [dictGetOrCreate, dictGetD, hpa, hpx, hxa]
        · simp [dictGetOrCreate, dictGetD, hpa, hpx, ih]

end GetOrCreateLemmas

theorem dictGetD_innerExtend (inner : List (K × VMap V)) (k0 x : K) (ver : Version)
    (e : V × Int) :
    dictGetD (innerExtend inner k0 ver e) x [] =
      if x = k0 then dictExtend (dictGetD inner k0 []) ver e
      else dictGetD inner x [] := by
  induction inner with
  | nil =>
      by_cases h : x = k0
      · subst h; simp [innerExtend, dictGetD]
      · simp [innerExtend, dictGetD, h, Ne.symm h]
  | cons p rest ih =>
      by_cases hpa : p.1 = k0
      · by_cases hxa : x = k0
        · subst hxa; simp [innerExtend, dictGetD, hpa]
        · have hpx : ¬ p.1 = x := fun hh => hxa (hh ▸ hpa)
          simp [innerExtend, dictGetD, hpa, hxa, hpx, Ne.symm hxa]
      · by_cases hpx : p.1 = x
        · have hxa : ¬ x = k0 := fun hh => hpa (hpx.symm ▸ hh)
          simp [innerExtend, dictGetD, hpa, hpx, hxa]
        · simp [innerExtend, dictGetD, hpa, hpx, ih]

theorem buildIndex_eq_foldl (ops : List (K × Version × (V × Int))) :
    buildIndex ops = ops.foldl addStep (Index.mk [] none) := rfl

theorem opsAt_cons (op : K × Version × (V × Int)) (ops : List (K × Version × (V × Int)))
    (k : K) :
    opsAt (op :: ops) k =
      if op.1 = k then op.2 :: opsAt ops k else opsAt ops k := by
  by_cases h : op.1 = k <;> simp [opsAt, List.filterMap_cons, h]

theorem build_foldl_aux (ops : List (K × Version × (V × Int))) :
    ∀ (inn : List (K × VMap V)) (k : K),
      (ops.foldl addStep (Index.mk inn none)).compaction_frontier = none ∧
      dictGetD (ops.foldl addStep (Index.mk inn none)).inner k [] =
        (opsAt ops k).foldl (fun d p => dictExtend d p.1 p.2) (dictGetD inn k []) := by
  induction ops with
  | nil => intro inn k; simp [opsAt]
  | cons op ops ih =>
      intro inn k
      have hstep : addStep (Index.mk inn none) op =
          Index.mk (innerExtend inn op.1 op.2.1 op.2.2) none := by
        simp [addStep, Index.add_value, Index.validate_version]
      rw [List.foldl_cons, hstep]
      rcases ih (innerExtend inn op.1 op.2.1 op.2.2) k with ⟨h1, h2⟩
      refine ⟨h1, ?_⟩
      rw [h2, dictGetD_innerExtend, opsAt_cons]
      by_cases h : op.1 = k
      · subst h; simp
      · simp [h, Ne.symm h]

theorem foldl_addStep_frontier (ops : List (K × Version × (V × Int))) :
    ∀ inn : List (K × VMap V),
      (ops.foldl addStep (Index.mk inn none)).compaction_frontier = none := by
  induction ops with
  | nil => intro inn; rfl
  | cons op ops ih =>
      intro inn
      have hstep : addStep (Index.mk inn none) op =
          Index.mk (innerExtend inn op.1 op.2.1 op.2.2) none := by
        simp [addStep, Index.add_value, Index.validate_version]
      rw [List.foldl_cons, hstep]
      exact ih _

theorem buildIndex_frontier (ops : List (K × Version × (V × Int))) :
    (buildIndex ops : Index K V).compaction_frontier = none := by
  rw [buildIndex_eq_foldl]
  exact foldl_addStep_frontier ops []

theorem buildIndex_bucket (ops : List (K × Version × (V × Int))) (k : K) :
    dictGetD (buildIndex ops : Index K V).inner k [] = groupSpec (opsAt ops k) := by
  rw [buildIndex_eq_foldl]
  have h := (build_foldl_aux ops [] k).2
  rw [h]
  have hinit : dictGetD ([] : List (K × VMap V)) k [] = [] := rfl
  rw [hinit]
  exact foldl_dictExtend_eq_groupSpec (opsAt ops k)

theorem reconstructList_groupSpec (ps : List (Version × (V × Int))) (v : Version) :
    reconstructList (groupSpec ps) v =
      ((firstDedup (ps.map (·.1))).filter fun w => Version.less_equal w v).flatMap
        fun w => (ps.filter fun p => decide (p.1 = w)).map (·.2) := by
  rw [reconstructList_eq_filter, groupSpec, List.filter_map, List.flatMap_map]
  rfl

theorem reconstruct_at_buildIndex (ops : List (K × Version × (V × Int))) (k : K)
    (v : Version) :
    Index.reconstruct_at (buildIndex ops) k v =
      Except.ok (reconstructSpecGrouped ops k v,
        Index.mk (dictGetOrCreate (buildIndex ops : Index K V).inner k).2 none) := by
  have hf : (buildIndex ops : Index K V).compaction_frontier = none :=
    buildIndex_frontier ops
  have hval : (buildIndex ops : Index K V).validate_version v = true := by
    simp [Index.validate_version, hf]
  simp only [Index.reconstruct_at, hval, if_true, hf]
  rw [dictGetOrCreate_fst, buildIndex_bucket, reconstructList_groupSpec]
  rfl

/-- C1 (amended): `reconstruct_at(k, v)` on an index built by a sequence of
`add_value` calls returns the entries added at key `k` with version `≤ v`
grouped by version — versions in first-insertion order, the entries of each
version in insertion order — not in global insertion order. -/
theorem claim_C1_reconstruction_grouped (ops : List (K × Version × (V × Int)))
    (k : K) (v : Version) :
    ∃ i2, Index.reconstruct_at (buildIndex ops) k v =
      Except.ok (reconstructSpecGrouped ops k v, i2) :=
  ⟨_, reconstruct_at_buildIndex ops k v⟩

/-- C1 counterexample: after adding entries at versions `[1]`, `[2]`, `[1]`
of one key, `reconstruct_at` at `[2]` returns `[(1,1), (3,1), (2,1)]` —
grouped by version — and not the insertion-order concatenation
`[(1,1), (2,1), (3,1)]` of all entries with version `≤ [2]`. -/
theorem claim_C1_counterexample :
    okList (Index.reconstruct_at (buildIndex opsC1) 0 [2]) ≠
      (opsC1.filter fun op => decide (op.1 = 0) && Version.less_equal op.2.1 [2]).map
        (fun op => op.2.2) := by decide

/-- C8 (amended): on a key holding no entries, `versions` returns the empty
sequence unconditionally, and `reconstruct_at` returns the empty sequence
without error provided the requested version passes the compaction-frontier
validation (a stale version still fails validation, regardless of the
key). -/
theorem claim_C8_empty_key (i : Index K V) (k : K) (v : Version)
    (hk : dictGetD i.inner k [] = []) :
    (Index.versions i k).1 = [] ∧
    (i.validate_version v = true →
      ∃ i2, Index.reconstruct_at i k v = Except.ok ([], i2)) := by
  constructor
  · simp [Index.versions, dictGetOrCreate_fst, hk]
  · intro hval
    refine ⟨Index.mk (dictGetOrCreate i.inner k).2 i.compaction_frontier, ?_⟩
    simp [Index.reconstruct_at, hval, reconstructList, dictGetOrCreate_fst, hk]

/-- C8 witness: on the empty index, `versions` and `reconstruct_at` of an
unwritten key return empty results. -/
theorem claim_C8_witness :
    (Index.versions (Index.mk [] none : Index Nat Int) 0).1 = [] ∧
    ∃ i2, Index.reconstruct_at (Index.mk [] none : Index Nat Int) 0 [1] =
      Except.ok ([], i2) := by
  have h := claim_C8_empty_key (Index.mk [] none : Index Nat Int) 0 [1] rfl
  exact ⟨h.1, h.2 rfl⟩

/-- C8 counterexample: with compaction frontier `{[2]}` installed,
`reconstruct_at` on a never-written key at the stale version `[1]` raises
the validation error rather than returning an empty sequence. -/
theorem claim_C8_counterexample :
    (okIndex (Index.compact (Index.mk [] none : Index Nat Int) [[2]])).inner = [] ∧
    Index.reconstruct_at (okIndex (Index.compact (Index.mk [] none : Index Nat Int) [[2]]))
        0 [1] = Except.error Err.assertionFailed := by decide

/-- C9 (amended): `reconstruct_at` and `versions` preserve the compaction
frontier and every key's stored entries, and leave the state entirely
unchanged when the queried key is already present; on an absent key the
`defaultdict` read appends an empty bucket for that key (an observable
change of `inner`, with no change to any lookup). -/
theorem claim_C9_read_only (i : Index K V) (k : K) (v : Version) :
    ((Index.versions i k).2.compaction_frontier = i.compaction_frontier ∧
      (∀ x, dictGetD (Index.versions i k).2.inner x [] = dictGetD i.inner x []) ∧
      (k ∈ keysOf i.inner → (Index.versions i k).2 = i)) ∧
    (i.validate_version v = true →
      ∃ out i2, Index.reconstruct_at i k v = Except.ok (out, i2) ∧
        i2.compaction_frontier = i.compaction_frontier ∧
        (∀ x, dictGetD i2.inner x [] = dictGetD i.inner x []) ∧
        (k ∈ keysOf i.inner → i2 = i)) := by
  constructor
  · refine ⟨rfl, fun x => ?_, fun hmem => ?_⟩
    · simp [Index.versions, dictGetD_getOrCreate_snd]
    · simp only [Index.versions]
      rw [dictGetOrCreate_snd_of_mem hmem]
  · intro hval
    refine ⟨reconstructList (dictGetOrCreate i.inner k).1 v,
      Index.mk (dictGetOrCreate i.inner k).2 i.compaction_frontier, ?_, rfl,
      fun x => dictGetD_getOrCreate_snd i.inner k x, fun hmem => ?_⟩
    · simp [Index.reconstruct_at, hval]
    · rw [dictGetOrCreate_snd_of_mem hmem]

/-- C9 witness: on an index holding key 0, `versions` and `reconstruct_at`
leave the state unchanged. -/
theorem claim_C9_witness :
    (Index.versions (buildIndex [(0, [1], (5, 1))] : Index Nat Int) 0).2 =
        buildIndex [(0, [1], (5, 1))] ∧
    ∃ out i2,
      Index.reconstruct_at (buildIndex [(0, [1], (5, 1))] : Index Nat Int) 0 [1] =
        Except.ok (out, i2) ∧ i2 = buildIndex [(0, [1], (5, 1))] := by
  have h := claim_C9_read_only (buildIndex [(0, [1], (5, 1))] : Index Nat Int) 0 [1]
  refine ⟨h.1.2.2 (by decide), ?_⟩
  obtain ⟨out, i2, heq, -, -, hid⟩ := h.2 (by decide)
  exact ⟨out, i2, heq, hid (by decide)⟩

/-- C9 counterexample: `versions` on an unwritten key mutates the index —
the `defaultdict` read `self.inner[key]` inserts an empty bucket — so the
state is not left entirely unchanged. -/
theorem claim_C9_counterexample :
    (Index.versions (Index.mk [] none : Index Nat Int) 0).2 ≠
      (Index.mk [] none : Index Nat Int) := by decide

/-- C4: with compaction frontier F installed, `reconstruct_at` and
`add_value` fail with the validation error exactly on versions not ≥ F,
`compact` fails exactly on frontiers not ≥ F, and all three succeed on
arguments ≥ F. -/
theorem claim_C4_stale_access (i : Index K V) (F : Frontier)
    (hF : i.compaction_frontier = some F) :
    (∀ (k : K) (v : Version) (e : V × Int), Antichain.le_version F v = false →
        Index.reconstruct_at i k v = Except.error Err.assertionFailed ∧
        Index.add_value i k v e = Except.error Err.assertionFailed) ∧
    (∀ (k : K) (v : Version) (e : V × Int), Antichain.le_version F v = true →
        (Index.reconstruct_at i k v).isOkB = true ∧
        (Index.add_value i k v e).isOkB = true) ∧
    (∀ G : Frontier, Antichain.le F G = false →
        Index.compact i G = Except.error Err.assertionFailed) ∧
    (∀ G : Frontier, Antichain.le F G = true →
        (Index.compact i G).isOkB = true) := by
  have hvv : ∀ v : Version, i.validate_version v = Antichain.le_version F v := by
    intro v; simp [Index.validate_version, hF]
  have hvf : ∀ G : Frontier, i.validate_frontier G = Antichain.le F G := by
    intro G; simp [Index.validate_frontier, hF]
  refine ⟨fun k v e hv => ?_, fun k v e hv => ?_, fun G hG => ?_, fun G hG => ?_⟩
  · constructor
    · simp [Index.reconstruct_at, hvv, hv]
    · simp [Index.add_value, hvv, hv]
  · constructor
    · simp [Index.reconstruct_at, hvv, hv, Except.isOkB]
    · simp [Index.add_value, hvv, hv, Except.isOkB]
  · simp [Index.compact, hvf, hG]
  · simp [Index.compact, hvf, hG, Except.isOkB]

/-- C4 witness: on a concrete index with frontier `{[2]}`, version `[1]`
fails and version `[2]` succeeds for reads and writes, and frontier `{[1]}`
fails while `{[3]}` succeeds for compaction. -/
theorem claim_C4_witness :
    Index.reconstruct_at iFr 0 [1] = Except.error Err.assertionFailed ∧
    Index.add_value iFr 0 [1] (7, 1) = Except.error Err.assertionFailed ∧
    (Index.reconstruct_at iFr 0 [2]).isOkB = true ∧
    (Index.add_value iFr 0 [2] (7, 1)).isOkB = true ∧
    Index.compact iFr [[1]] = Except.error Err.assertionFailed ∧
    (Index.compact iFr [[3]]).isOkB = true := by
  have h := claim_C4_stale_access iFr [[2]] rfl
  exact ⟨(h.1 0 [1] (7, 1) (by decide)).1, (h.1 0 [1] (7, 1) (by decide)).2,
    (h.2.1 0 [2] (7, 1) (by decide)).1, (h.2.1 0 [2] (7, 1) (by decide)).2,
    h.2.2.1 [[1]] (by decide), h.2.2.2 [[3]] (by decide)⟩

/-- C5: with a compaction frontier F installed, `compact` with a frontier
not ≥ F fails with the validation error and never returns a new index. -/
theorem claim_C5_nonmonotonic_compaction (i : Index K V) (F G : Frontier)
    (hF : i.compaction_frontier = some F) (hG : Antichain.le F G = false) :
    Index.compact i G = Except.error Err.assertionFailed ∧
    ∀ i2, Index.compact i G ≠ Except.ok i2 := by
  have hvf : i.validate_frontier G = Antichain.le F G := by
    simp [Index.validate_frontier, hF]
  constructor
  · simp [Index.compact, hvf, hG]
  · intro i2
    simp [Index.compact, hvf, hG]

/-- C5 witness: compacting a frontier-`{[2]}` index with the lower frontier
`{[1]}` fails. -/
theorem claim_C5_witness :
    Index.compact iFr [[1]] = Except.error Err.assertionFailed ∧
    ∀ i2, Index.compact iFr [[1]] ≠ Except.ok i2 :=
  claim_C5_nonmonotonic_compaction iFr [[2]] [[1]] rfl (by decide)

theorem dictGetD_of_not_mem {α β : Type} [DecidableEq α] {d : List (α × β)} {a : α}
    (h : a ∉ keysOf d) (dflt : β) : dictGetD d a dflt = dflt := by
  induction d with
  | nil => rfl
  | cons p rest ih =>
      simp only [keysOf, List.map_cons, List.mem_cons] at h
      push_neg at h
      simp [dictGetD, Ne.symm h.1, ih (by simpa [keysOf] using h.2)]

theorem dictGetD_innerExtendList (inner : List (K × VMap V)) (k0 x : K)
    (ver : Version) (es : List (V × Int)) :
    dictGetD (innerExtendList inner k0 ver es) x [] =
      if x = k0 then dictExtendList (dictGetD inner k0 []) ver es
      else dictGetD inner x [] := by
  induction inner with
  | nil =>
      by_cases h : x = k0
      · subst h; simp [innerExtendList, dictGetD]
      · simp [innerExtendList, dictGetD, h, Ne.symm h]
  | cons p rest ih =>
      by_cases hpa : p.1 = k0
      · by_cases hxa : x = k0
        · subst hxa; simp [innerExtendList, dictGetD, hpa]
        · have hpx : ¬ p.1 = x := fun hh => hxa (hh ▸ hpa)
          simp [innerExtendList, dictGetD, hpa, hxa, hpx, Ne.symm hxa]
      · by_cases hpx : p.1 = x
        · have hxa : ¬ x = k0 := fun hh => hpa (hpx.symm ▸ hh)
          simp [innerExtendList, dictGetD, hpa, hpx, hxa]
        · simp [innerExtendList, dictGetD, hpa, hpx, ih]

theorem innerExtendList_fold_bucket (k0 x : K) (vmapB : VMap V) :
    ∀ inn : List (K × VMap V),
      dictGetD (vmapB.foldl (fun inn2 q => innerExtendList inn2 k0 q.1 q.2) inn) x [] =
        if x = k0
        then vmapB.foldl (fun m q => dictExtendList m q.1 q.2) (dictGetD inn k0 [])
        else dictGetD inn x [] := by
  induction vmapB with
  | nil => intro inn; by_cases h : x = k0 <;> simp [h]
  | cons q rest ih =>
      intro inn
      rw [List.foldl_cons, ih]
      by_cases h : x = k0
      · subst h
        simp [dictGetD_innerExtendList]
      · simp [h, dictGetD_innerExtendList]

theorem append_fold_bucket (entries : List (K × VMap V)) :
    ∀ (inn : List (K × VMap V)) (k : K), (keysOf entries).Nodup →
      dictGetD
        (entries.foldl
          (fun inn p => p.2.foldl (fun inn2 q => innerExtendList inn2 p.1 q.1 q.2) inn)
          inn) k [] =
        if k ∈ keysOf entries
        then (dictGetD entries k []).foldl (fun m q => dictExtendList m q.1 q.2)
          (dictGetD inn k [])
        else dictGetD inn k [] := by
  induction entries with
  | nil => intro inn k _; simp [keysOf]
  | cons p rest ih =>
      intro inn k hnd
      have hnd' : (p.1 :: keysOf rest).Nodup := hnd
      rcases List.nodup_cons.mp hnd' with ⟨hp, hrest⟩
      rw [List.foldl_cons, ih _ k hrest]
      have hconskeys : keysOf (p :: rest) = p.1 :: keysOf rest := rfl
      by_cases hkp : k = p.1
      · subst hkp
        rw [if_neg hp, hconskeys, if_pos (List.mem_cons_self _ _),
          innerExtendList_fold_bucket, if_pos rfl]
        simp [dictGetD]
      · rw [hconskeys]
        by_cases hkr : k ∈ keysOf rest
        · rw [if_pos hkr, if_pos (List.mem_cons.mpr (Or.inr hkr)),
            innerExtendList_fold_bucket, if_neg hkp]
          simp [dictGetD, Ne.symm hkp]
        · rw [if_neg hkr,
            if_neg (fun hmem => (List.mem_cons.mp hmem).elim hkp hkr),
            innerExtendList_fold_bucket, if_neg hkp]

theorem reconstructList_cons (q : Version × List (V × Int)) (ps : VMap V) (v : Version) :
    reconstructList (q :: ps) v =
      (if Version.less_equal q.1 v then q.2 else []) ++ reconstructList ps v := by
  rw [reconstructList_eq_filter, reconstructList_eq_filter]
  by_cases h : Version.less_equal q.1 v <;> simp [h]

theorem reconstructList_extendList_perm (v : Version) (a : Version)
    (bs : List (V × Int)) (m : VMap V) :
    (reconstructList (dictExtendList m a bs) v).Perm
      (reconstructList m v ++ if Version.less_equal a v then bs else []) := by
  induction m with
  | nil =>
      by_cases h : Version.less_equal a v <;>
        simp [dictExtendList, reconstructList_eq_filter, h]
  | cons p rest ih =>
      by_cases hpa : p.1 = a
      · subst hpa
        have hred : dictExtendList (p :: rest) p.1 bs = (p.1, p.2 ++ bs) :: rest := by
          simp [dictExtendList]
        rw [hred, reconstructList_cons, reconstructList_cons]
        by_cases h : Version.less_equal p.1 v
        · rw [if_pos h, if_pos h, if_pos h, List.append_assoc, List.append_assoc]
          exact List.Perm.append_left p.2 List.perm_append_comm
        · rw [if_neg h, if_neg h, if_neg h]
          simp
      · have hred : dictExtendList (p :: rest) a bs = p :: dictExtendList rest a bs := by
          simp [dictExtendList, hpa]
        rw [hred, reconstructList_cons, reconstructList_cons, List.append_assoc]
        exact List.Perm.append_left _ ih

theorem reconstructList_foldl_extendList_perm (v : Version) (ps : VMap V) :
    ∀ m : VMap V,
      (reconstructList (ps.foldl (fun m q => dictExtendList m q.1 q.2) m) v).Perm
        (reconstructList m v ++ reconstructList ps v) := by
  induction ps with
  | nil => intro m; simp [reconstructList]
  | cons q ps ih =>
      intro m
      rw [List.foldl_cons]
      refine (ih (dictExtendList m q.1 q.2)).trans ?_
      rw [reconstructList_cons, ← List.append_assoc]
      exact List.Perm.append (reconstructList_extendList_perm v q.1 q.2 m)
        (List.Perm.refl _)

/-- C6 (amended): after `A.append(B)`, `reconstruct_at(k, v)` returns a
permutation of `A.reconstruct_at(k, v) ++ B.reconstruct_at(k, v)` (as
computed before the append): each shared version's bucket is `A`'s entries
followed by `B`'s, but buckets of different versions interleave, so the
result is the concatenation only up to reordering. -/
theorem claim_C6_append_composition (A B : Index K V) (k : K) (v : Version)
    (hND : (keysOf B.inner).Nodup)
    (hA : A.validate_version v = true) (hB : B.validate_version v = true) :
    ∃ la lb lm iA iB iM,
      Index.reconstruct_at A k v = Except.ok (la, iA) ∧
      Index.reconstruct_at B k v = Except.ok (lb, iB) ∧
      Index.reconstruct_at (Index.append A B) k v = Except.ok (lm, iM) ∧
      lm.Perm (la ++ lb) := by
  have hM : (Index.append A B).validate_version v = true := hA
  refine ⟨reconstructList (dictGetOrCreate A.inner k).1 v,
    reconstructList (dictGetOrCreate B.inner k).1 v,
    reconstructList (dictGetOrCreate (Index.append A B).inner k).1 v,
    Index.mk (dictGetOrCreate A.inner k).2 A.compaction_frontier,
    Index.mk (dictGetOrCreate B.inner k).2 B.compaction_frontier,
    Index.mk (dictGetOrCreate (Index.append A B).inner k).2
      (Index.append A B).compaction_frontier,
    ?_, ?_, ?_, ?_⟩
  · simp [Index.reconstruct_at, hA]
  · simp [Index.reconstruct_at, hB]
  · simp [Index.reconstruct_at, hM]
  · rw [dictGetOrCreate_fst, dictGetOrCreate_fst, dictGetOrCreate_fst]
    have hinner : (Index.append A B).inner =
        B.inner.foldl
          (fun inn p => p.2.foldl (fun inn2 q => innerExtendList inn2 p.1 q.1 q.2) inn)
          A.inner := rfl
    rw [hinner, append_fold_bucket B.inner A.inner k hND]
    by_cases hmem : k ∈ keysOf B.inner
    · rw [if_pos hmem]
      exact reconstructList_foldl_extendList_perm v (dictGetD B.inner k [])
        (dictGetD A.inner k [])
    · rw [if_neg hmem, dictGetD_of_not_mem hmem]
      simp [reconstructList]

/-- C6 witness: on two concrete two-version indexes, the appended
reconstruction is a permutation of the two reconstructions concatenated. -/
theorem claim_C6_witness :
    ∃ la lb lm iA iB iM,
      Index.reconstruct_at iA6 0 [2] = Except.ok (la, iA) ∧
      Index.reconstruct_at iB6 0 [2] = Except.ok (lb, iB) ∧
      Index.reconstruct_at (Index.append iA6 iB6) 0 [2] = Except.ok (lm, iM) ∧
      lm.Perm (la ++ lb) :=
  claim_C6_append_composition iA6 iB6 0 [2] (by decide) (by decide) (by decide)

/-- C6 counterexample: appending B (versions `[1]`, `[2]` of key 0) to A
(same versions) interleaves the version buckets, so the merged
reconstruction `[(1,1), (3,1), (2,1), (4,1)]` is not the concatenation
`[(1,1), (2,1)] ++ [(3,1), (4,1)]` of the two prior reconstructions. -/
theorem claim_C6_counterexample :
    okList (Index.reconstruct_at (Index.append iA6 iB6) 0 [2]) ≠
      okList (Index.reconstruct_at iA6 0 [2]) ++
        okList (Index.reconstruct_at iB6 0 [2]) := by decide

theorem foldl_flatMap2 {δ γ β : Type} (f : δ → γ → δ) (g : β → List γ)
    (xs : List β) : ∀ d : δ,
      xs.foldl (fun acc x => (g x).foldl f acc) d = (xs.flatMap g).foldl f d := by
  induction xs with
  | nil => intro d; simp
  | cons x xs ih => intro d; simp [List.foldl_append, ih]

theorem filterMap_keep {γ δ : Type} [DecidableEq δ] (l : List (γ × List δ))
    (h : ∀ q ∈ l, q.2 ≠ []) :
    (l.filterMap fun p => if p.2 = [] then none else some p) = l := by
  induction l with
  | nil => rfl
  | cons q rest ih =>
      rw [List.filterMap_cons]
      simp only [if_neg (h q (List.mem_cons_self q rest))]
      rw [ih fun p hp => h p (List.mem_cons_of_mem q hp)]

theorem join_eq_groupSpec (a : Index K V) (b : Index K W) :
    Index.join a b = groupSpec (joinProducts a b) := by
  have hne : ∀ q ∈ groupSpec (joinProducts a b), q.2 ≠ [] := fun q hq =>
    bucket_ne_nil_of_mem_groupSpec hq
  conv_rhs => rw [← filterMap_keep (groupSpec (joinProducts a b)) hne]
  rw [← foldl_dictExtend_eq_groupSpec]
  show (a.inner.foldl
      (fun d p =>
        match dictFind? b.inner p.1 with
        | none => d
        | some bvmap =>
            p.2.foldl
              (fun d1 q1 =>
                bvmap.foldl
                  (fun d2 q2 =>
                    q1.2.foldl
                      (fun d3 e1 =>
                        q2.2.foldl
                          (fun d4 e2 =>
                            dictExtend d4 (Version.join q1.1 q2.1)
                              ((p.1, (e1.1, e2.1)), e1.2 * e2.2))
                          d3)
                      d2)
                  d1)
              d)
      []).filterMap (fun p => if p.2 = [] then none else some p) =
    ((joinProducts a b).foldl (fun d p => dictExtend d p.1 p.2) []).filterMap
      (fun p => if p.2 = [] then none else some p)
  congr 1
  show _ = (a.inner.flatMap (keyProducts b)).foldl (fun d p => dictExtend d p.1 p.2) []
  rw [← foldl_flatMap2]
  congr 1
  funext d p
  unfold keyProducts
  cases hf : dictFind? b.inner p.1 with
  | none => simp
  | some bvm =>
      simp only []
      rw [← foldl_flatMap2]
      congr 1
      funext d1 q1
      rw [← foldl_flatMap2]
      congr 1
      funext d2 q2
      rw [← foldl_flatMap2]
      congr 1
      funext d3 e1
      rw [List.foldl_map]

theorem mem_joinProducts {a : Index K V} {b : Index K W}
    {q : Version × ((K × (V × W)) × Int)} (h : q ∈ joinProducts a b) :
    q.2.1.1 ∈ keysOf a.inner ∧ (dictFind? b.inner q.2.1.1).isSome = true := by
  rcases List.mem_flatMap.mp h with ⟨p, hp, hq⟩
  unfold keyProducts at hq
  cases hf : dictFind? b.inner p.1 with
  | none => rw [hf] at hq; cases hq
  | some bvm =>
      rw [hf] at hq
      rcases List.mem_flatMap.mp hq with ⟨q1, _, hq2⟩
      rcases List.mem_flatMap.mp hq2 with ⟨q2, _, hq3⟩
      rcases List.mem_flatMap.mp hq3 with ⟨e1, _, hq4⟩
      rcases List.mem_map.mp hq4 with ⟨e2, _, hq5⟩
      have hk : q.2.1.1 = p.1 := by rw [← hq5]
      rw [hk]
      exact ⟨List.mem_map_of_mem (·.1) hp, by rw [hf]; rfl⟩

/-- C2: `join` emits, for every key present in both indexes and every pair
of entries under it, the product entry
`((key, (value1, value2)), multiplicity1 * multiplicity2)` at version
`version1.join(version2)` — its output is exactly the cross product
`joinProducts` grouped by result version (`groupSpec`), a sequence of
(Version, Collection) pairs with each version appearing at most once and
no empty collections, in which keys present in only one index contribute
nothing. -/
theorem claim_C2_join_cross_product (a : Index K V) (b : Index K W) :
    Index.join a b = groupSpec (joinProducts a b) ∧
    (keysOf (Index.join a b)).Nodup ∧
    (∀ p ∈ Index.join a b, p.2 ≠ []) ∧
    (∀ p ∈ Index.join a b, ∀ e ∈ p.2,
      e.1.1 ∈ keysOf a.inner ∧ (dictFind? b.inner e.1.1).isSome = true) := by
  refine ⟨join_eq_groupSpec a b, ?_, ?_, ?_⟩
  · rw [join_eq_groupSpec, keysOf_groupSpec]
    exact nodup_firstDedup _
  · intro p hp
    rw [join_eq_groupSpec] at hp
    exact bucket_ne_nil_of_mem_groupSpec hp
  · intro p hp e he
    rw [join_eq_groupSpec] at hp
    have hmem : (p.1, e) ∈ joinProducts a b := mem_of_mem_groupSpec hp he
    exact mem_joinProducts hmem

/-- C10: `join` performs no consolidation: every product entry — including
one whose input multiplicity is 0 — appears in the output collection of
its result version. -/
theorem claim_C10_join_keeps_zero_entries (a : Index K V) (b : Index K W)
    (k : K) (avm : VMap V) (bvm : VMap W) (v1 v2 : Version)
    (d1 : List (V × Int)) (d2 : List (W × Int)) (x1 : V) (m1 : Int) (x2 : W)
    (m2 : Int)
    (ha : (k, avm) ∈ a.inner) (hb : dictFind? b.inner k = some bvm)
    (h1 : (v1, d1) ∈ avm) (h2 : (v2, d2) ∈ bvm)
    (he1 : (x1, m1) ∈ d1) (he2 : (x2, m2) ∈ d2) :
    ∃ c, (Version.join v1 v2, c) ∈ Index.join a b ∧
      ((k, (x1, x2)), m1 * m2) ∈ c := by
  have hprod : (Version.join v1 v2, ((k, (x1, x2)), m1 * m2)) ∈ joinProducts a b := by
    refine List.mem_flatMap.mpr ⟨(k, avm), ha, ?_⟩
    unfold keyProducts
    rw [show dictFind? b.inner (k, avm).1 = some bvm from hb]
    refine List.mem_flatMap.mpr ⟨(v1, d1), h1, ?_⟩
    refine List.mem_flatMap.mpr ⟨(v2, d2), h2, ?_⟩
    refine List.mem_flatMap.mpr ⟨(x1, m1), he1, ?_⟩
    exact List.mem_map.mpr ⟨(x2, m2), he2, rfl⟩
  rcases mem_groupSpec_of_mem hprod with ⟨c, hc, hin⟩
  refine ⟨c, ?_, hin⟩
  rw [join_eq_groupSpec]
  exact hc

/-- C10 witness: joining an input entry of multiplicity 0 yields an output
collection containing the zero-multiplicity product entry. -/
theorem claim_C10_witness :
    ∃ c, (Version.join [1] [1], c) ∈ Index.join iZ1 iZ2 ∧
      ((0, ((5 : Int), (7 : Int))), (0 : Int) * 3) ∈ c :=
  claim_C10_join_keeps_zero_entries iZ1 iZ2 0 [([1], [(5, 0)])] [([1], [(7, 3)])]
    [1] [1] [(5, 0)] [(7, 3)] 5 0 7 3 (by decide) (by decide) (by decide)
    (by decide) (by decide) (by decide)

/-- C3: compacting the example index with frontier `{[2]}` succeeds, and
`reconstruct_at(key, [2])` afterwards returns exactly `[(10, 2)]` —
multiplicities of equal values summed per merged version, zero-sum values
dropped. -/
theorem claim_C3_compaction_consolidation :
    (Index.compact (buildIndex opsC3) [[2]]).isOkB = true ∧
    okList (Index.reconstruct_at
      (okIndex (Index.compact (buildIndex opsC3) [[2]])) 1 [2]) = [(10, 2)] ∧
    (Index.reconstruct_at
      (okIndex (Index.compact (buildIndex opsC3) [[2]])) 1 [2]).isOkB = true := by
  decide

section VersionLattice

theorem Version.less_equal_refl (v : Version) : Version.less_equal v v = true := by
  simp [Version.less_equal]

theorem Antichain.le_refl (F : Frontier) : Antichain.le F F = true := by
  simp only [Antichain.le, List.all_eq_true]
  intro x hx
  simp only [List.any_eq_true]
  exact ⟨x, hx, Version.less_equal_refl x⟩

theorem Version.getD_join (v w : Version) (idx : Nat) :
    (Version.join v w).getD idx 0 =
      if idx < max v.length w.length then max (v.getD idx 0) (w.getD idx 0)
      else 0 := by
  rw [Version.join, List.getD_eq_getElem?_getD, List.getElem?_map]
  by_cases h : idx < max v.length w.length
  · simp [List.getElem?_range, h]
  · have hnone : (List.range (max v.length w.length))[idx]? = none :=
      List.getElem?_eq_none (by simpa using Nat.le_of_not_lt h)
    simp [hnone, h]

theorem Version.length_join (v w : Version) :
    (Version.join v w).length = max v.length w.length := by
  simp [Version.join]

theorem Version.le_join_right (v w : Version) :
    Version.less_equal w (Version.join v w) = true := by
  simp only [Version.less_equal, List.all_eq_true]
  intro idx hidx
  rw [List.mem_range] at hidx
  have hlen : max w.length (Version.join v w).length = max v.length w.length := by
    rw [Version.length_join]
    exact Nat.max_eq_right (Nat.le_max_right _ _)
  rw [hlen] at hidx
  rw [Version.getD_join, if_pos hidx]
  simp [Nat.le_max_right]

theorem advance_fold_mem (v : Version) (fs : List Version) :
    ∀ acc : Version,
      (fs.foldl
        (fun acc g =>
          if Version.less_equal (Version.join v g) acc then Version.join v g else acc)
        acc) ∈ acc :: fs.map (Version.join v) := by
  induction fs with
  | nil => intro acc; simp
  | cons g fs ih =>
      intro acc
      rw [List.foldl_cons]
      by_cases h : Version.less_equal (Version.join v g) acc
      · rw [if_pos h]
        rcases List.mem_cons.mp (ih (Version.join v g)) with h1 | h1
        · simp [h1]
        · simp [List.mem_cons.mpr (Or.inr (List.mem_cons.mpr (Or.inr h1)))]
      · rw [if_neg h]
        rcases List.mem_cons.mp (ih acc) with h1 | h1
        · simp [h1]
        · simp [List.mem_cons.mpr (Or.inr (List.mem_cons.mpr (Or.inr h1)))]

theorem advance_by_mem (v : Version) (F : Frontier) (hF : F ≠ []) :
    ∃ g ∈ F, Version.advance_by v F = Version.join v g := by
  cases F with
  | nil => exact absurd rfl hF
  | cons f fs =>
      have h := advance_fold_mem v fs (Version.join v f)
      rw [Version.advance_by]
      rcases List.mem_cons.mp h with h1 | h1
      · exact ⟨f, List.mem_cons_self f fs, h1⟩
      · rcases List.mem_map.mp h1 with ⟨g, hg, hjoin⟩
        exact ⟨g, List.mem_cons_of_mem f hg, hjoin.symm⟩

theorem le_version_advance_by (v : Version) (F : Frontier) (hF : F ≠ []) :
    Antichain.le_version F (Version.advance_by v F) = true := by
  rcases advance_by_mem v F hF with ⟨g, hg, heq⟩
  rw [heq]
  simp only [Antichain.le_version, List.any_eq_true]
  exact ⟨g, hg, Version.le_join_right v g⟩

end VersionLattice

section CompactLemmas

variable {α β : Type} [DecidableEq α]

theorem mem_keysOf_dictRemove {m : List (α × β)} {a x : α}
    (h : x ∈ keysOf (dictRemove m a)) : x ∈ keysOf m := by
  induction m with
  | nil => cases h
  | cons p rest ih =>
      by_cases hpa : p.1 = a
      · simp only [dictRemove, if_pos hpa] at h
        exact List.mem_cons_of_mem _ h
      · simp only [dictRemove, if_neg hpa, keysOf, List.map_cons, List.mem_cons] at h ⊢
        rcases h with h | h
        · exact Or.inl h
        · exact Or.inr (ih h)

theorem not_mem_keysOf_dictRemove {m : List (α × β)} {a : α}
    (hnd : (keysOf m).Nodup) : a ∉ keysOf (dictRemove m a) := by
  induction m with
  | nil => simp [dictRemove, keysOf]
  | cons p rest ih =>
      have hnd' : (p.1 :: keysOf rest).Nodup := hnd
      rcases List.nodup_cons.mp hnd' with ⟨hp, hrest⟩
      by_cases hpa : p.1 = a
      · simp only [dictRemove, if_pos hpa]
        rw [← hpa]
        exact hp
      · simp only [dictRemove, if_neg hpa, keysOf, List.map_cons, List.mem_cons]
        push_neg
        exact ⟨fun hh => hpa hh.symm, ih hrest⟩

theorem nodup_keysOf_dictRemove {m : List (α × β)} {a : α}
    (hnd : (keysOf m).Nodup) : (keysOf (dictRemove m a)).Nodup := by
  induction m with
  | nil => simp [dictRemove, keysOf]
  | cons p rest ih =>
      have hnd' : (p.1 :: keysOf rest).Nodup := hnd
      rcases List.nodup_cons.mp hnd' with ⟨hp, hrest⟩
      by_cases hpa : p.1 = a
      · simpa [dictRemove, hpa] using hrest
      · simp only [dictRemove, if_neg hpa]
        refine List.nodup_cons.mpr ⟨?_, ih hrest⟩
        exact fun hh => hp (mem_keysOf_dictRemove hh)

theorem mem_keysOf_dictExtendList {m : List (α × List β)} {a x : α} {bs : List β}
    (h : x ∈ keysOf (dictExtendList m a bs)) : x ∈ keysOf m ∨ x = a := by
  induction m with
  | nil =>
      simp only [dictExtendList, keysOf, List.map_cons, List.map_nil,
        List.mem_singleton] at h
      exact Or.inr h
  | cons p rest ih =>
      by_cases hpa : p.1 = a
      · simp only [dictExtendList, if_pos hpa, keysOf, List.map_cons,
          List.mem_cons] at h ⊢
        rcases h with h | h
        · exact Or.inl (Or.inl h)
        · exact Or.inl (Or.inr h)
      · simp only [dictExtendList, if_neg hpa, keysOf, List.map_cons,
          List.mem_cons] at h ⊢
        rcases h with h | h
        · exact Or.inl (Or.inl h)
        · rcases ih h with h2 | h2
          · exact Or.inl (Or.inr h2)
          · exact Or.inr h2

theorem nodup_keysOf_dictExtendList {m : List (α × List β)} {a : α} {bs : List β}
    (hnd : (keysOf m).Nodup) : (keysOf (dictExtendList m a bs)).Nodup := by
  induction m with
  | nil => simp [dictExtendList, keysOf]
  | cons p rest ih =>
      have hnd' : (p.1 :: keysOf rest).Nodup := hnd
      rcases List.nodup_cons.mp hnd' with ⟨hp, hrest⟩
      by_cases hpa : p.1 = a
      · simpa [dictExtendList, hpa, keysOf] using List.nodup_cons.mpr ⟨hp, hrest⟩
      · simp only [dictExtendList, if_neg hpa]
        refine List.nodup_cons.mpr ⟨?_, ih hrest⟩
        intro hh
        rcases mem_keysOf_dictExtendList hh with h2 | h2
        · exact hp h2
        · exact hpa h2

theorem mem_dictGetD_of_mem_keys {m : List (α × List β)} {a : α}
    (h : a ∈ keysOf m) : (a, dictGetD m a []) ∈ m := by
  induction m with
  | nil => cases h
  | cons p rest ih =>
      by_cases hpa : p.1 = a
      · rw [dictGetD, if_pos hpa]
        subst hpa
        exact List.mem_cons_self _ _
      · rw [dictGetD, if_neg hpa]
        have : a ∈ keysOf rest := by
          rcases List.mem_cons.mp h with h1 | h1
          · exact absurd h1.symm hpa
          · exact h1
        exact List.mem_cons_of_mem _ (ih this)

theorem mem_dictSet {d : List (α × β)} {a : α} {b : β} {p : α × β}
    (hnd : (keysOf d).Nodup) (h : p ∈ dictSet d a b) :
    p = (a, b) ∨ (p ∈ d ∧ p.1 ≠ a) := by
  induction d with
  | nil =>
      simp only [dictSet, List.mem_singleton] at h
      exact Or.inl h
  | cons q rest ih =>
      have hnd' : (q.1 :: keysOf rest).Nodup := hnd
      rcases List.nodup_cons.mp hnd' with ⟨hq, hrest⟩
      by_cases hqa : q.1 = a
      · simp only [dictSet, if_pos hqa, List.mem_cons] at h
        rcases h with h | h
        · exact Or.inl h
        · refine Or.inr ⟨List.mem_cons_of_mem _ h, fun hpa => ?_⟩
          exact hq (hqa ▸ hpa ▸ List.mem_map_of_mem (·.1) h)
      · simp only [dictSet, if_neg hqa, List.mem_cons] at h
        rcases h with h | h
        · exact Or.inr ⟨List.mem_cons.mpr (Or.inl h), h ▸ hqa⟩
        · rcases ih hrest h with h2 | h2
          · exact Or.inl h2
          · exact Or.inr ⟨List.mem_cons_of_mem _ h2.1, h2.2⟩

theorem nodup_keysOf_dictSet {d : List (α × β)} {a : α} {b : β}
    (hnd : (keysOf d).Nodup) : (keysOf (dictSet d a b)).Nodup := by
  induction d with
  | nil => simp [dictSet, keysOf]
  | cons q rest ih =>
      have hnd' : (q.1 :: keysOf rest).Nodup := hnd
      rcases List.nodup_cons.mp hnd' with ⟨hq, hrest⟩
      by_cases hqa : q.1 = a
      · have hred : dictSet (q :: rest) a b = (a, b) :: rest := by
          simp [dictSet, hqa]
        rw [hred]
        have hkeys : keysOf ((a, b) :: rest) = a :: keysOf rest := rfl
        rw [hkeys]
        exact List.nodup_cons.mpr ⟨hqa ▸ hq, hrest⟩
      · have hred : dictSet (q :: rest) a b = q :: dictSet rest a b := by
          simp [dictSet, hqa]
        rw [hred]
        have hkeys : keysOf (q :: dictSet rest a b) =
            q.1 :: keysOf (dictSet rest a b) := rfl
        rw [hkeys]
        refine List.nodup_cons.mpr ⟨?_, ih hrest⟩
        intro hh
        rcases List.mem_map.mp hh with ⟨p, hp, hpk⟩
        rcases mem_dictSet hrest hp with h2 | h2
        · apply hqa
          rw [← hpk, h2]
        · apply hq
          rw [← hpk]
          exact List.mem_map_of_mem (·.1) h2.1

theorem dictSet_getD_self {d : List (α × List β)} {a : α}
    (h : a ∈ keysOf d) : dictSet d a (dictGetD d a []) = d := by
  induction d with
  | nil => cases h
  | cons q rest ih =>
      by_cases hqa : q.1 = a
      · rw [dictGetD, if_pos hqa, dictSet, if_pos hqa, ← hqa]
      · rw [dictGetD, if_neg hqa, dictSet, if_neg hqa]
        have : a ∈ keysOf rest := by
          rcases List.mem_cons.mp h with h1 | h1
          · exact absurd h1.symm hqa
          · exact h1
        rw [ih this]

theorem mem_getOrCreate_snd {d : List (α × List β)} {a : α} {p : α × List β}
    (h : p ∈ (dictGetOrCreate d a).2) : p ∈ d ∨ p = (a, []) := by
  induction d with
  | nil =>
      simp only [dictGetOrCreate, List.mem_singleton] at h
      exact Or.inr h
  | cons q rest ih =>
      by_cases hqa : q.1 = a
      · simp only [dictGetOrCreate, if_pos hqa] at h
        exact Or.inl h
      · simp only [dictGetOrCreate, if_neg hqa, List.mem_cons] at h
        rcases h with h | h
        · exact Or.inl (List.mem_cons.mpr (Or.inl h))
        · rcases ih h with h2 | h2
          · exact Or.inl (List.mem_cons_of_mem _ h2)
          · exact Or.inr h2

theorem nodup_keysOf_getOrCreate_snd {d : List (α × List β)} {a : α}
    (hnd : (keysOf d).Nodup) : (keysOf (dictGetOrCreate d a).2).Nodup := by
  by_cases h : a ∈ keysOf d
  · rw [dictGetOrCreate_snd_of_mem h]; exact hnd
  · rw [dictGetOrCreate_snd_of_not_mem h, keysOf, List.map_append]
    simp only [List.map_cons, List.map_nil]
    rw [List.nodup_append]
    exact ⟨hnd, List.nodup_singleton a, by simpa [keysOf] using h⟩

end CompactLemmas

theorem compactLoop1_spec (cf : Frontier) :
    ∀ (tc : List Version) (vmap : VMap V), (keysOf vmap).Nodup →
      (keysOf (compactLoop1 cf tc vmap).1).Nodup ∧
      (∀ p ∈ (compactLoop1 cf tc vmap).1,
        (p.1 ∈ keysOf vmap ∧ p.1 ∉ tc) ∨ ∃ u, p.1 = Version.advance_by u cf) ∧
      (∀ w ∈ (compactLoop1 cf tc vmap).2, ∃ u, w = Version.advance_by u cf) := by
  intro tc
  induction tc with
  | nil =>
      intro vmap hnd
      refine ⟨hnd, fun p hp => ?_, fun w hw => absurd hw (List.not_mem_nil w)⟩
      exact Or.inl ⟨List.mem_map_of_mem (·.1) hp, List.not_mem_nil p.1⟩
  | cons ver rest ih =>
      intro vmap hnd
      have hnd1 : (keysOf (dictRemove vmap ver)).Nodup := nodup_keysOf_dictRemove hnd
      have hnd2 : (keysOf (dictExtendList (dictRemove vmap ver)
          (Version.advance_by ver cf) (dictGetD vmap ver []))).Nodup :=
        nodup_keysOf_dictExtendList hnd1
      rcases ih _ hnd2 with ⟨ndr, memr, nvsr⟩
      refine ⟨ndr, fun p hp => ?_, fun w hw => ?_⟩
      · rcases memr p hp with ⟨hmem, hnot⟩ | hadv
        · rcases mem_keysOf_dictExtendList hmem with h2 | h2
          · refine Or.inl ⟨mem_keysOf_dictRemove h2, fun hc => ?_⟩
            rcases List.mem_cons.mp hc with hc1 | hc1
            · exact not_mem_keysOf_dictRemove hnd (hc1 ▸ h2)
            · exact hnot hc1
          · exact Or.inr ⟨ver, h2⟩
        · exact Or.inr hadv
      · rcases List.mem_cons.mp hw with hw1 | hw1
        · exact ⟨ver, hw1⟩
        · exact nvsr w hw1

theorem compactLoop2_keys :
    ∀ (tc2 : List Version) (vmap : VMap V), ∀ p ∈ compactLoop2 tc2 vmap,
      p.1 ∈ keysOf vmap ∨ p.1 ∈ tc2 := by
  intro tc2
  induction tc2 with
  | nil => intro vmap p hp; exact Or.inl (List.mem_map_of_mem (·.1) hp)
  | cons ver rest ih =>
      intro vmap p hp
      rcases ih _ p hp with h | h
      · rw [keysOf, List.map_append] at h
        rcases List.mem_append.mp h with h1 | h1
        · exact Or.inl (mem_keysOf_dictRemove h1)
        · simp only [List.map_cons, List.map_nil, List.mem_singleton] at h1
          exact Or.inr (List.mem_cons.mpr (Or.inl h1))
      · exact Or.inr (List.mem_cons_of_mem _ h)

theorem compactKey_good (cf : Frontier) (hcf : cf ≠ []) (vmap : VMap V)
    (hnd : (keysOf vmap).Nodup) :
    ∀ p ∈ compactKey cf vmap, Antichain.le_version cf p.1 = true := by
  intro p hp
  rcases compactLoop1_spec cf
    ((keysOf vmap).filter fun ver => !(Antichain.le_version cf ver)) vmap hnd with
    ⟨_, mem1, nvs1⟩
  rcases compactLoop2_keys _ _ p hp with h | h
  · rcases List.mem_map.mp h with ⟨q, hq, hqk⟩
    rcases mem1 q hq with ⟨hmem, hnot⟩ | ⟨u, hadv⟩
    · by_contra hle
      have hle2 : Antichain.le_version cf q.1 = false :=
        Bool.eq_false_iff.mpr fun hc => hle (hqk ▸ hc)
      exact hnot (List.mem_filter.mpr ⟨hmem, by simp [hle2]⟩)
    · rw [← hqk, hadv]
      exact le_version_advance_by u cf hcf
  · have : p.1 ∈ (compactLoop1 cf _ vmap).2 := mem_firstDedup.mp h
    rcases nvs1 p.1 this with ⟨u, hadv⟩
    rw [hadv]
    exact le_version_advance_by u cf hcf

theorem compactKey_of_good (cf : Frontier) (vmap : VMap V)
    (hg : ∀ p ∈ vmap, Antichain.le_version cf p.1 = true) :
    compactKey cf vmap = vmap := by
  have htc : ((keysOf vmap).filter fun ver => !(Antichain.le_version cf ver)) = [] := by
    refine List.filter_eq_nil_iff.mpr fun x hx => ?_
    rcases List.mem_map.mp hx with ⟨p, hp, hpk⟩
    simp [← hpk, hg p hp]
  rw [compactKey]
  simp only [htc]
  rfl

theorem compact_fold_good (cf : Frontier) (hcf : cf ≠ []) :
    ∀ (ks : List K) (inn : List (K × VMap V)),
      (keysOf inn).Nodup →
      (∀ p ∈ inn, (∀ q ∈ p.2, Antichain.le_version cf q.1 = true) ∨
        (p.1 ∈ ks ∧ (keysOf p.2).Nodup)) →
      (keysOf (ks.foldl (fun inn k =>
          dictSet (dictGetOrCreate inn k).2 k
            (compactKey cf (dictGetOrCreate inn k).1)) inn)).Nodup ∧
      ∀ p ∈ ks.foldl (fun inn k =>
          dictSet (dictGetOrCreate inn k).2 k
            (compactKey cf (dictGetOrCreate inn k).1)) inn,
        ∀ q ∈ p.2, Antichain.le_version cf q.1 = true := by
  intro ks
  induction ks with
  | nil =>
      intro inn hnd hyp
      refine ⟨hnd, fun p hp q hq => ?_⟩
      rcases hyp p hp with h | h
      · exact h q hq
      · exact absurd h.1 (List.not_mem_nil p.1)
  | cons k ks ih =>
      intro inn hnd hyp
      rw [List.foldl_cons]
      have hndr : (keysOf (dictGetOrCreate inn k).2).Nodup :=
        nodup_keysOf_getOrCreate_snd hnd
      have hnd' : (keysOf (dictSet (dictGetOrCreate inn k).2 k
          (compactKey cf (dictGetOrCreate inn k).1))).Nodup :=
        nodup_keysOf_dictSet hndr
      refine ih _ hnd' fun p hp => ?_
      rcases mem_dictSet hndr hp with hpk | ⟨hpmem, hpne⟩
      · left
        intro q hq
        rw [hpk] at hq
        simp only at hq
        by_cases hk : k ∈ keysOf inn
        · have hfst : (dictGetOrCreate inn k).1 = dictGetD inn k [] :=
            dictGetOrCreate_fst inn k
          have hbucket : (k, dictGetD inn k []) ∈ inn := mem_dictGetD_of_mem_keys hk
          rcases hyp _ hbucket with hgood | ⟨_, hndb⟩
          · rw [hfst, compactKey_of_good cf _ (fun r hr => hgood r hr)] at hq
            exact hgood q hq
          · exact compactKey_good cf hcf _ (hfst ▸ hndb) q hq
        · have hfst : (dictGetOrCreate inn k).1 = [] := by
            rw [dictGetOrCreate_fst, dictGetD_of_not_mem hk]
          rw [hfst, compactKey_of_good cf [] (fun r hr => absurd hr (List.not_mem_nil r))] at hq
          exact absurd hq (List.not_mem_nil q)
      · rcases mem_getOrCreate_snd hpmem with hin | hnew
        · rcases hyp p hin with h | h
          · exact Or.inl h
          · refine Or.inr ⟨?_, h.2⟩
            rcases List.mem_cons.mp h.1 with h1 | h1
            · exact absurd h1 hpne
            · exact h1
        · exact absurd (congrArg Prod.fst hnew) hpne

theorem compact_ok_good (i i1 : Index K V) (cf : Frontier) (hcf : cf ≠ [])
    (hWF : Index.WF i) (h1 : Index.compact i cf = Except.ok i1) :
    (keysOf i1.inner).Nodup ∧
    (∀ p ∈ i1.inner, ∀ q ∈ p.2, Antichain.le_version cf q.1 = true) ∧
    i1.compaction_frontier = some cf := by
  by_cases hval : i.validate_frontier cf = true
  · simp only [Index.compact, hval, if_true] at h1
    rcases compact_fold_good cf hcf (keysOf i.inner) i.inner hWF.1
      (fun p hp => Or.inr ⟨List.mem_map_of_mem (·.1) hp, hWF.2 p hp⟩) with ⟨hnd2, hg2⟩
    injection h1 with h1'
    subst h1'
    exact ⟨hnd2, hg2, rfl⟩
  · have hfalse : i.validate_frontier cf = false := Bool.eq_false_iff.mpr hval
    simp [Index.compact, hfalse] at h1

theorem compact_fold_id (cf : Frontier) :
    ∀ (ks : List K) (inn : List (K × VMap V)),
      (∀ k ∈ ks, k ∈ keysOf inn) →
      (∀ p ∈ inn, ∀ q ∈ p.2, Antichain.le_version cf q.1 = true) →
      ks.foldl (fun inn k =>
        dictSet (dictGetOrCreate inn k).2 k
          (compactKey cf (dictGetOrCreate inn k).1)) inn = inn := by
  intro ks
  induction ks with
  | nil => intro inn _ _; rfl
  | cons k ks ih =>
      intro inn hks hg
      have hk : k ∈ keysOf inn := hks k (List.mem_cons_self k ks)
      have hbucket : (k, dictGetD inn k []) ∈ inn := mem_dictGetD_of_mem_keys hk
      have hstep : dictSet (dictGetOrCreate inn k).2 k
          (compactKey cf (dictGetOrCreate inn k).1) = inn := by
        rw [dictGetOrCreate_snd_of_mem hk, dictGetOrCreate_fst,
          compactKey_of_good cf _ (fun r hr => hg _ hbucket r hr),
          dictSet_getD_self hk]
      rw [List.foldl_cons, hstep]
      exact ih inn (fun x hx => hks x (List.mem_cons_of_mem k hx)) hg

theorem compact_noop (i : Index K V) (cf : Frontier)
    (hfr : i.compaction_frontier = some cf)
    (hg : ∀ p ∈ i.inner, ∀ q ∈ p.2, Antichain.le_version cf q.1 = true) :
    Index.compact i cf = Except.ok i := by
  have hval : i.validate_frontier cf = true := by
    simp [Index.validate_frontier, hfr, Antichain.le_refl]
  simp only [Index.compact, hval, if_true]
  rw [compact_fold_id cf (keysOf i.inner) i.inner (fun k hk => hk) hg]
  have heta : Index.mk i.inner (some cf) = i := by
    rw [← hfr]
  rw [heta]

/-- C7: compacting twice with the same frontier F leaves the stored
contents of every version ≥ F (at every key) unchanged between the first
and the second compaction, for any well-formed starting index. -/
theorem claim_C7_idempotent_compaction (i i1 i2 : Index K V) (cf : Frontier)
    (hWF : Index.WF i)
    (h1 : Index.compact i cf = Except.ok i1)
    (h2 : Index.compact i1 cf = Except.ok i2) :
    ∀ (k : K) (w : Version), Antichain.le_version cf w = true →
      dictGetD (dictGetD i2.inner k []) w [] =
        dictGetD (dictGetD i1.inner k []) w [] := by
  intro k w hw
  by_cases hcf : cf = []
  · subst hcf
    simp [Antichain.le_version] at hw
  · rcases compact_ok_good i i1 cf hcf hWF h1 with ⟨_, hg1, hfr1⟩
    have hnoop : Index.compact i1 cf = Except.ok i1 := compact_noop i1 cf hfr1 hg1
    rw [hnoop] at h2
    have h12 : i1 = i2 := by injection h2
    rw [← h12]

/-- C7 witness: compacting the example index with frontier `{[2]}` twice —
the consolidated bucket at version `[2]` is unchanged by the second
compaction. -/
theorem claim_C7_witness :
    dictGetD (dictGetD (okIndex (Index.compact
        (okIndex (Index.compact (buildIndex opsC3) [[2]])) [[2]])).inner 1 []) [2] [] =
      dictGetD (dictGetD (okIndex (Index.compact
        (buildIndex opsC3) [[2]])).inner 1 []) [2] [] :=
  claim_C7_idempotent_compaction (buildIndex opsC3)
    (okIndex (Index.compact (buildIndex opsC3) [[2]]))
    (okIndex (Index.compact (okIndex (Index.compact (buildIndex opsC3) [[2]])) [[2]]))
    [[2]] ⟨by decide, by decide⟩ (by decide) (by decide) 1 [2] (by decide)
